import Mathlib

/-!
Verification of the gohome link-expansion engine.

Rust strings are modelled as their UTF-8 byte sequences, `List Nat`
(one element per byte).  All string operations of the source
(`contains`, `find`, slicing, `starts_with`, `ends_with`) are
byte-based in Rust, so this embedding is exact.  Concrete ASCII
literals are injected with `bytes`.

External crates (handlebars, url, regex, the SQLite store) are not
code of this repository; where a claim depends on them they are
either modelled from their documented behaviour (urlencoding) or
abstracted as explicit function parameters whose required behaviour
appears as hypotheses, discharged concretely in the witnesses.
-/

namespace GoHome

/-- Byte sequence of an ASCII string literal.  Used only on ASCII
inputs, where UTF-8 bytes coincide with the character codes. -/
def bytes (s : String) : List Nat := s.data.map Char.toNat

abbrev Bytes := List Nat

/-- Model of Rust `str::starts_with` on bytes: first argument is the
haystack, second the candidate leading sequence. -/
def startsWithB : Bytes → Bytes → Bool
  | _, [] => true
  | [], _ :: _ => false
  | a :: as, b :: bs => if a = b then startsWithB as bs else false

/-- Model of Rust `str::ends_with` on bytes. -/
def endsWithB (l suffix : Bytes) : Bool :=
  startsWithB l.reverse suffix.reverse

/-- Model of Rust `str::find(&str)`: byte offset of the first
occurrence of `needle`, `none` when absent.  (`"".find("")` is
`Some(0)` in Rust, matched here.) -/
def findSub? (needle : Bytes) : Bytes → Option Nat
  | [] => if needle = [] then some 0 else none
  | c :: rest =>
    if startsWithB (c :: rest) needle = true then some 0
    else (findSub? needle rest).map (· + 1)

/-- Model of Rust `str::contains(&str)` on bytes. -/
def containsSub (hay needle : Bytes) : Bool :=
  (findSub? needle hay).isSome

/-- The two-byte handlebars open marker, bytes of two 0x7B characters. -/
def openMarkerB : Bytes := [123, 123]

/-- Bytes of the literal placeholder text appended by `with_path`:
open marker, `path`, close marker (0x7B 0x7B p a t h 0x7D 0x7D). -/
def placeholderB : Bytes := [123, 123, 112, 97, 116, 104, 125, 125]

/-- `Renderer::with_path` from `src/render.rs` (identical logic is
inlined in `handlers::expand_link`): when the stored pattern has no
open marker and the remainder is non-empty, append `/` plus the
placeholder (no extra `/` when the pattern already ends in one);
otherwise keep the pattern verbatim. -/
def with_path (path long : Bytes) : Bytes :=
  if containsSub long openMarkerB = false ∧ path ≠ [] then
    if endsWithB long [47] = true then long ++ placeholderB
    else long ++ 47 :: placeholderB
  else long

/-- The slug normalisation at the top of `Renderer::path_remainder`:
keep the slug when it starts with `/` (byte 47), otherwise put one in
front. -/
def normalizeSlug (short_slug : Bytes) : Bytes :=
  if startsWithB short_slug [47] = true then short_slug else 47 :: short_slug

/-- `Renderer::path_remainder` from `src/render.rs`: excise the
first occurrence of the normalised slug, returning the bytes before
the match followed by the bytes after it; when the slug is absent
return the full path unchanged. -/
def path_remainder (full_path short_slug : Bytes) : Bytes :=
  match findSub? (normalizeSlug short_slug) full_path with
  | some i => full_path.take i ++ full_path.drop (i + (normalizeSlug short_slug).length)
  | none => full_path

/-- Unreserved bytes of the `urlencoding` crate: ASCII alphanumerics
and `-` `.` `_` `~` (bytes 45, 46, 95, 126) pass through unencoded. -/
def isUnreservedByte (b : Nat) : Bool :=
  (48 ≤ b ∧ b ≤ 57) ∨ (65 ≤ b ∧ b ≤ 90) ∨ (97 ≤ b ∧ b ≤ 122)
    ∨ b = 45 ∨ b = 46 ∨ b = 95 ∨ b = 126

/-- Uppercase hexadecimal digit byte for a value below 16. -/
def hexDigitB (d : Nat) : Nat := if d < 10 then 48 + d else 55 + d

/-- Model of `urlencoding::encode` at the byte level: unreserved
bytes pass through, every other byte becomes `%` (37) followed by
two uppercase hexadecimal digit bytes. -/
def urlencode : Bytes → Bytes
  | [] => []
  | b :: rest =>
    (if isUnreservedByte b then [b]
     else [37, hexDigitB (b / 16), hexDigitB (b % 16)]) ++ urlencode rest

/-- Replacement of every hyphen byte (45) by the bytes of `to`
(116, 111): model of `.replace('-', "to")`. -/
def replaceHyphenTo : Bytes → Bytes
  | [] => []
  | b :: rest => (if b = 45 then [116, 111] else [b]) ++ replaceHyphenTo rest

/-- `normalized_id` from `src/model.rs`: percent-encode, then replace
every hyphen of the encoded result by `to`. -/
def normalized_id (short : Bytes) : Bytes :=
  replaceHyphenTo (urlencode short)

/-- The path-remainder operation exactly as claim C2 words it, for
comparison with the source: normalise the slug to exactly one leading
`/`, excise the first occurrence, then strip exactly one leading `/`
from the result when one remains. -/
def c2ClaimedRemainder (full_path short_slug : Bytes) : Bytes :=
  let slug := 47 :: short_slug.dropWhile (· = 47)
  match findSub? slug full_path with
  | some i =>
    let r := full_path.take i ++ full_path.drop (i + slug.length)
    match r with
    | 47 :: rest => rest
    | _ => r
  | none => full_path

/-- Failure cases of `Renderer::expand_link`: a handlebars render
error (carrying its message bytes) or a URL parse failure. -/
inductive ExpandErr where
  | render (msg : Bytes)
  | parseFail
  deriving DecidableEq

/-- `Renderer::expand_link` from `src/render.rs`.  The external
collaborators are explicit parameters: `render` models
`handlebars.render_template` applied to the template and the json
data holding the path value; `url_parse` models `Url::parse` and
`url_parse_with_params` models `Url::parse_with_params`, both
returning `none` on a parse error.  The function selects the
effective template with `with_path`, renders it, then parses the
expanded string (merging the query parameters when any are present),
propagating every failure. -/
def expand_link {U : Type} (render : Bytes → Bytes → Except Bytes Bytes)
    (url_parse : Bytes → Option U)
    (url_parse_with_params : Bytes → List (Bytes × Bytes) → Option U)
    (path : Bytes) (query_params : List (Bytes × Bytes)) (long : Bytes) :
    Except ExpandErr U :=
  match render (with_path path long) path with
  | .error e => .error (.render e)
  | .ok expanded =>
    if query_params ≠ [] then
      match url_parse_with_params expanded query_params with
      | some u => .ok u
      | none => .error .parseFail
    else
      match url_parse expanded with
      | some u => .ok u
      | none => .error .parseFail

/-- Model of `Vec::join` with a one-byte separator. -/
def joinSep (sep : Nat) : List Bytes → Bytes
  | [] => []
  | [p] => p
  | p :: q :: rest => p ++ sep :: joinSep sep (q :: rest)

/-- The query-merge step of `expand_link` in `src/handlers.rs`
(lines 248-263): with no query parameters the expanded string is
returned untouched; otherwise each key and value is percent-encoded
independently, the pairs are joined as `key=value` (61 is `=`) with
`&` (38), and the result is appended after `&` when the expanded
string already contains `?` (63), after `?` otherwise. -/
def merge_query (expanded : Bytes) (query_params : List (Bytes × Bytes)) : Bytes :=
  if query_params ≠ [] then
    let query_string :=
      joinSep 38 (query_params.map fun kv => urlencode kv.1 ++ 61 :: urlencode kv.2)
    if containsSub expanded [63] = true then expanded ++ 38 :: query_string
    else expanded ++ 63 :: query_string
  else expanded

/-- Hexadecimal digit bytes, either case. -/
def isHexDigitB (b : Nat) : Bool :=
  (48 ≤ b ∧ b ≤ 57) ∨ (65 ≤ b ∧ b ≤ 70) ∨ (97 ≤ b ∧ b ≤ 102)

/-- Numeric value of a hexadecimal digit byte. -/
def hexValB (b : Nat) : Nat :=
  if b ≤ 57 then b - 48 else if b ≤ 70 then b - 55 else b - 87

/-- Model of `urlencoding::decode` at the byte level: `%` followed by
two hexadecimal digit bytes becomes the denoted byte; a `%` not
followed by a valid escape is kept literally. -/
def urldecode : Bytes → Bytes
  | [] => []
  | b :: x :: y :: r =>
    if b = 37 ∧ isHexDigitB x = true ∧ isHexDigitB y = true then
      (hexValB x * 16 + hexValB y) :: urldecode r
    else b :: urldecode (x :: y :: r)
  | b :: rest => b :: urldecode rest

/-- Everything after the first occurrence of a byte, `none` when the
byte is absent. -/
def afterFirst? (sep : Nat) : Bytes → Option Bytes
  | [] => none
  | b :: rest => if b = sep then some rest else afterFirst? sep rest

/-- Split at every occurrence of a byte (standard `split`: `n`
separators give `n + 1` pieces). -/
def splitOnB (sep : Nat) : Bytes → List Bytes
  | [] => [[]]
  | b :: rest =>
    match splitOnB sep rest with
    | [] => [[]]
    | h :: t => if b = sep then [] :: h :: t else (b :: h) :: t

/-- Split at the first occurrence of a byte: bytes before it and
bytes after it (the whole input and `[]` when it is absent). -/
def splitFirstAt (sep : Nat) : Bytes → Bytes × Bytes
  | [] => ([], [])
  | b :: rest =>
    if b = sep then ([], rest)
    else
      let p := splitFirstAt sep rest
      (b :: p.1, p.2)

/-- Decoding of one `key=value` piece as claim C6 words it: split at
the first `=`, percent-decode each side. -/
def decodePair (piece : Bytes) : Bytes × Bytes :=
  let p := splitFirstAt 61 piece
  (urldecode p.1, urldecode p.2)

/-- The decoded key/value pairs of a URL string's query component
(the part after the first `?`), as claim C6 words it: split the
component at `&`, decode each piece; no `?` means no pairs. -/
def queryPairs (u : Bytes) : List (Bytes × Bytes) :=
  match afterFirst? 63 u with
  | some comp => (splitOnB 38 comp).map decodePair
  | none => []

/-- Boolean order-independent equality of two pair lists, the
set-comparison claim C6 asserts. -/
def sameSet (l1 l2 : List (Bytes × Bytes)) : Bool :=
  l1.all (fun p => l2.contains p) && l2.all (fun p => l1.contains p)

/-- The fields of `model::Link` used by the redirect path (the id,
timestamps and owner play no role in `Renderer::get`). -/
structure Link where
  short : Bytes
  long : Bytes

/-- The reply built by `redirect_with_status` in `src/render.rs`: a
Location target and an HTTP status code. -/
inductive Reply where
  | redirectWithStatus (location : Bytes) (status : Nat)
  deriving DecidableEq

/-- Result of one `Renderer::get` request: the reply returned to warp
together with the trace of `stats.incr` invocations (their argument,
in order). -/
structure GetResult where
  reply : Reply
  incrCalls : List Bytes
  deriving DecidableEq

/-- `Renderer::get` from `src/render.rs`.  The store lookup, the
expansion and the counter increment are explicit parameters standing
for the awaited collaborator calls.  The reply is computed from the
lookup and expansion alone: lookup failure gives a 404 redirect to
`/`, expansion failure a 500 redirect to `/`, success a permanent
redirect (308) to the expanded location.  Afterwards `stats.incr` is
invoked once with the short code and its result is discarded
(`let _ = ...` in the source), so `incrResult` is never inspected. -/
def renderer_get {E E2 : Type} (lookup : Except E Link)
    (expand : Bytes → List (Bytes × Bytes) → Bytes → Except E2 Bytes)
    (_incrResult : Except E Unit)
    (short full_path : Bytes) (query_params : List (Bytes × Bytes)) : GetResult :=
  let reply :=
    match lookup with
    | .ok link =>
      match expand (path_remainder full_path short) query_params link.long with
      | .ok location => Reply.redirectWithStatus location 308
      | .error _ => Reply.redirectWithStatus [47] 500
    | .error _ => Reply.redirectWithStatus [47] 404
  { reply := reply, incrCalls := [short] }

/-- The `match_string` handlebars helper from `src/render.rs` (same
code in `src/handlers.rs`): the external regex engine is a compile
function returning `none` for an invalid pattern and a matcher for
compiled regexes; a failed compilation yields `false` instead of an
error. -/
def match_string {R : Type} (compile : Bytes → Option R)
    (is_match : R → Bytes → Bool) (pattern path : Bytes) : Bool :=
  match compile pattern with
  | some r => is_match r path
  | none => false

/-- C1: when the stored pattern has no placeholder-opening marker and
the remainder is non-empty, the effective template is the pattern with
`/` and the `path` placeholder appended (just the placeholder when the
pattern already ends in `/`, so no double slash arises); in every
other case the effective template is the pattern verbatim. -/
theorem c1_effective_template_selection :
    ∀ pattern remainder : Bytes,
      (containsSub pattern openMarkerB = false → remainder ≠ [] →
        with_path remainder pattern =
          if endsWithB pattern [47] = true then pattern ++ placeholderB
          else pattern ++ 47 :: placeholderB)
      ∧ ((containsSub pattern openMarkerB = true ∨ remainder = []) →
        with_path remainder pattern = pattern) := by
  intro pattern remainder
  constructor
  · intro hm hr
    simp [with_path, hm, hr]
  · intro h
    rcases h with h | h
    · simp [with_path, h]
    · simp [with_path, h]

/-- Witness for C1: the fallback case of the repository's own test
`test_remainder`, pattern lacking the marker and a non-empty
remainder. -/
theorem c1_effective_template_selection_witness :
    containsSub (bytes "http://host.com/foo") openMarkerB = false
      ∧ bytes "extra" ≠ []
      ∧ with_path (bytes "extra") (bytes "http://host.com/foo") =
          if endsWithB (bytes "http://host.com/foo") [47] = true then
            bytes "http://host.com/foo" ++ placeholderB
          else bytes "http://host.com/foo" ++ 47 :: placeholderB :=
  ⟨by decide, by decide,
    (c1_effective_template_selection (bytes "http://host.com/foo") (bytes "extra")).1
      (by decide) (by decide)⟩

/-- C2 counterexample: at fullPath `/nyt/sports/article` and slug
`nyt` the code keeps the leading `/` of the excised result (matching
the repository's `test_path_remainder_1`), while the claim's final
strip-one-leading-slash step would remove it. -/
theorem c2_counterexample :
    path_remainder (bytes "/nyt/sports/article") (bytes "nyt") = bytes "/sports/article"
      ∧ c2ClaimedRemainder (bytes "/nyt/sports/article") (bytes "nyt") = bytes "sports/article"
      ∧ path_remainder (bytes "/nyt/sports/article") (bytes "nyt")
          ≠ c2ClaimedRemainder (bytes "/nyt/sports/article") (bytes "nyt") := by
  refine ⟨by decide, by decide, by decide⟩

/-- C2 amended: the slug is the short slug with a `/` put in front
when it does not already start with one; the first occurrence of that
slug in the full path is excised exactly once, the concatenation of
the bytes before and after it being returned with no further leading
slash stripping; when the slug is absent the full path is returned
unchanged (and the operation is total, never erring). -/
theorem c2_path_remainder_amended :
    ∀ full_path short_slug : Bytes,
      (∀ i, findSub? (normalizeSlug short_slug) full_path = some i →
        path_remainder full_path short_slug =
          full_path.take i ++ full_path.drop (i + (normalizeSlug short_slug).length))
      ∧ (findSub? (normalizeSlug short_slug) full_path = none →
        path_remainder full_path short_slug = full_path) := by
  intro full_path short_slug
  constructor
  · intro i hi
    simp [path_remainder, hi]
  · intro h
    simp [path_remainder, h]

/-- Witness for C2 amended: excision of `/nyt` at offset 0 from
`/nyt/sports/article`. -/
theorem c2_path_remainder_amended_witness :
    findSub? (normalizeSlug (bytes "nyt")) (bytes "/nyt/sports/article") = some 0
      ∧ path_remainder (bytes "/nyt/sports/article") (bytes "nyt") =
          (bytes "/nyt/sports/article").take 0
            ++ (bytes "/nyt/sports/article").drop (0 + (normalizeSlug (bytes "nyt")).length) :=
  ⟨by decide,
    (c2_path_remainder_amended (bytes "/nyt/sports/article") (bytes "nyt")).1 0 (by decide)⟩

/-- C3: `normalized_id` percent-encodes first and replaces hyphens of
the encoded result second; it is total with empty input mapping to
empty output, and satisfies the two stated examples. -/
theorem c3_normalized_id_encode_then_replace :
    (∀ s : Bytes, normalized_id s = replaceHyphenTo (urlencode s))
      ∧ normalized_id (bytes "hello-world") = bytes "hellotoworld"
      ∧ normalized_id (bytes "rust-lang/book") = bytes "rusttolang%2Fbook"
      ∧ normalized_id [] = [] :=
  ⟨fun _ => rfl, by decide, by decide, by decide⟩

/-- C5: with an empty query mapping, `expand_link` parses the
expanded string and returns the parsed URL when parsing succeeds,
returns an expansion error when parsing fails, and an `ok` result
always certifies that the expanded string parsed — the engine never
returns a syntactically invalid URL. -/
theorem c5_empty_params_parse {U : Type}
    (render : Bytes → Bytes → Except Bytes Bytes)
    (url_parse : Bytes → Option U)
    (url_parse_with_params : Bytes → List (Bytes × Bytes) → Option U)
    (path long expanded : Bytes)
    (hr : render (with_path path long) path = .ok expanded) :
    (∀ u, url_parse expanded = some u →
        expand_link render url_parse url_parse_with_params path [] long = .ok u)
      ∧ (url_parse expanded = none →
        expand_link render url_parse url_parse_with_params path [] long = .error .parseFail)
      ∧ (∀ u, expand_link render url_parse url_parse_with_params path [] long = .ok u →
        url_parse expanded = some u) := by
  refine ⟨?_, ?_, ?_⟩
  · intro u hu
    simp [expand_link, hr, hu]
  · intro hu
    simp [expand_link, hr, hu]
  · intro u hu
    simp only [expand_link, hr, ne_eq, not_true_eq_false, if_false] at hu
    cases h : url_parse expanded with
    | none => simp [h] at hu
    | some v => simp [h] at hu ⊢; exact hu

/-- Witness for C5: the identity parser on the literal pattern of the
repository's `test_remainder` setup with no query parameters. -/
theorem c5_empty_params_parse_witness :
    expand_link (fun t _ => Except.ok t) (fun s => some s) (fun s _ => some s)
        [] [] (bytes "http://host.com/foo") =
      Except.ok (bytes "http://host.com/foo") :=
  (c5_empty_params_parse (fun t _ => Except.ok t) (fun s => some s) (fun s _ => some s)
      [] (bytes "http://host.com/foo") (bytes "http://host.com/foo") rfl).1
    (bytes "http://host.com/foo") rfl

/-- C4: expansion never re-encodes what the caller already encoded.
For a literal pattern (no placeholder-opening marker) and empty
remainder the effective template is the pattern itself; given that
the external renderer passes marker-free templates through verbatim
(handlebars' documented behaviour, asserted by the repository test
`test_no_mangle_escapes`) and that the URL parser round-trips the
pattern (same test), the engine output is the pattern byte for byte —
its percent-escapes untouched. -/
theorem c4_literal_escape_preservation
    (render : Bytes → Bytes → Except Bytes Bytes)
    (url_parse : Bytes → Option Bytes)
    (url_parse_with_params : Bytes → List (Bytes × Bytes) → Option Bytes)
    (long : Bytes)
    (hlit : containsSub long openMarkerB = false)
    (hrender : ∀ t v, containsSub t openMarkerB = false → render t v = .ok t)
    (hparse : url_parse long = some long) :
    expand_link render url_parse url_parse_with_params [] [] long = .ok long := by
  have htempl : with_path [] long = long := by
    simp [with_path]
  have hr : render (with_path [] long) [] = .ok long := by
    rw [htempl]; exact hrender long [] hlit
  simp [expand_link, hr, hparse]

/-- Witness for C4: the pattern `http://host.com/foo%2f/bar` of the
repository test `test_no_mangle_escapes` survives expansion
byte-identical. -/
theorem c4_literal_escape_preservation_witness :
    containsSub (bytes "http://host.com/foo%2f/bar") openMarkerB = false
      ∧ expand_link (fun t _ => Except.ok t) (fun s => some s) (fun s _ => some s)
          [] [] (bytes "http://host.com/foo%2f/bar") =
        Except.ok (bytes "http://host.com/foo%2f/bar") :=
  ⟨by decide,
    c4_literal_escape_preservation (fun t _ => Except.ok t) (fun s => some s)
      (fun s _ => some s) (bytes "http://host.com/foo%2f/bar")
      (by decide) (fun _ _ _ => rfl) rfl⟩

/-- C7: when lookup and expansion succeed the reply is the permanent
redirect to the expanded location whatever the increment outcome, and
two runs differing only in the increment result return identical
replies — the counter error is never surfaced. -/
theorem c7_counter_failure_swallowed {E E2 : Type} (lookup : Except E Link)
    (expand : Bytes → List (Bytes × Bytes) → Bytes → Except E2 Bytes)
    (incr1 incr2 : Except E Unit)
    (short full_path : Bytes) (query_params : List (Bytes × Bytes))
    (link : Link) (location : Bytes)
    (hl : lookup = .ok link)
    (he : expand (path_remainder full_path short) query_params link.long = .ok location) :
    (renderer_get lookup expand incr1 short full_path query_params).reply =
        Reply.redirectWithStatus location 308
      ∧ renderer_get lookup expand incr1 short full_path query_params =
          renderer_get lookup expand incr2 short full_path query_params := by
  subst hl
  constructor
  · simp [renderer_get, he]
  · rfl

/-- Witness for C7: a concrete successful lookup and expansion with a
succeeding and a failing increment. -/
theorem c7_counter_failure_swallowed_witness :
    (@renderer_get Unit Unit
          (.ok ⟨bytes "nyt", bytes "http://www.nytimes.com"⟩)
          (fun _ _ long => .ok long) (.ok ()) (bytes "nyt") (bytes "/nyt") []).reply =
        Reply.redirectWithStatus (bytes "http://www.nytimes.com") 308
      ∧ @renderer_get Unit Unit
            (.ok ⟨bytes "nyt", bytes "http://www.nytimes.com"⟩)
            (fun _ _ long => .ok long) (.ok ()) (bytes "nyt") (bytes "/nyt") [] =
          @renderer_get Unit Unit
            (.ok ⟨bytes "nyt", bytes "http://www.nytimes.com"⟩)
            (fun _ _ long => .ok long) (.error ()) (bytes "nyt") (bytes "/nyt") [] :=
  c7_counter_failure_swallowed (.ok ⟨bytes "nyt", bytes "http://www.nytimes.com"⟩)
    (fun _ _ long => .ok long) (.ok ()) (.error ()) (bytes "nyt") (bytes "/nyt") []
    ⟨bytes "nyt", bytes "http://www.nytimes.com"⟩ (bytes "http://www.nytimes.com") rfl rfl

/-- C9: every `Renderer::get` request attempts the counter increment
exactly once, with the short code as argument; in particular a failed
lookup still records the one increment attempt next to its not-found
reply. -/
theorem c9_increment_attempted_once {E E2 : Type} (lookup : Except E Link)
    (expand : Bytes → List (Bytes × Bytes) → Bytes → Except E2 Bytes)
    (incrResult : Except E Unit)
    (short full_path : Bytes) (query_params : List (Bytes × Bytes)) :
    (renderer_get lookup expand incrResult short full_path query_params).incrCalls = [short]
      ∧ (∀ e : E, lookup = .error e →
        renderer_get lookup expand incrResult short full_path query_params =
          { reply := Reply.redirectWithStatus [47] 404, incrCalls := [short] }) := by
  constructor
  · rfl
  · intro e he
    subst he
    rfl

/-- Witness for C9: a request whose lookup fails still performs the
single increment attempt. -/
theorem c9_increment_attempted_once_witness :
    (@renderer_get Unit Unit (.error ()) (fun _ _ long => .ok long)
          (.ok ()) (bytes "gone") (bytes "/gone") []).incrCalls = [bytes "gone"]
      ∧ @renderer_get Unit Unit (.error ()) (fun _ _ long => .ok long)
            (.ok ()) (bytes "gone") (bytes "/gone") [] =
          { reply := Reply.redirectWithStatus [47] 404, incrCalls := [bytes "gone"] } :=
  ⟨(c9_increment_attempted_once (.error ()) (fun _ _ long => .ok long)
      (.ok ()) (bytes "gone") (bytes "/gone") []).1,
    (c9_increment_attempted_once (.error ()) (fun _ _ long => .ok long)
      (.ok ()) (bytes "gone") (bytes "/gone") []).2 () rfl⟩

/-- C10: an invalid pattern makes the match helper return `false`
rather than raise an error, and a `true` result certifies that the
pattern compiled and the compiled regex matched the subject. -/
theorem c10_match_invalid_pattern_false {R : Type} (compile : Bytes → Option R)
    (is_match : R → Bytes → Bool) (pattern path : Bytes) :
    (compile pattern = none → match_string compile is_match pattern path = false)
      ∧ (match_string compile is_match pattern path = true →
        ∃ r, compile pattern = some r ∧ is_match r path = true) := by
  constructor
  · intro h
    simp [match_string, h]
  · intro h
    cases hc : compile pattern with
    | none => simp [match_string, hc] at h
    | some r =>
      refine ⟨r, rfl, ?_⟩
      simpa [match_string, hc] using h

/-- Witness for C10: a regex engine rejecting every pattern makes the
helper return `false`. -/
theorem c10_match_invalid_pattern_false_witness :
    @match_string Unit (fun _ => none) (fun _ _ => true)
        (bytes "[invalid") (bytes "123") = false :=
  (c10_match_invalid_pattern_false (fun _ => none) (fun _ _ => true)
      (bytes "[invalid") (bytes "123")).1 rfl

theorem isUnreservedByte_ne (b : Nat) (h : isUnreservedByte b = true) :
    b ≠ 37 ∧ b ≠ 38 ∧ b ≠ 61 ∧ b ≠ 63 := by
  simp [isUnreservedByte] at h
  omega

theorem hexDigitB_ne (d : Nat) : hexDigitB d ≠ 38 ∧ hexDigitB d ≠ 61 ∧ hexDigitB d ≠ 63 := by
  unfold hexDigitB
  split <;> omega

theorem isHexDigitB_hexDigitB (d : Nat) (h : d < 16) : isHexDigitB (hexDigitB d) = true := by
  simp [isHexDigitB, hexDigitB]
  split <;> omega

theorem hexValB_hexDigitB (d : Nat) (h : d < 16) : hexValB (hexDigitB d) = d := by
  unfold hexDigitB hexValB
  by_cases h10 : d < 10
  · rw [if_pos h10, if_pos (by omega)]
    omega
  · rw [if_neg h10, if_neg (by omega), if_pos (by omega)]
    omega

theorem urlencode_no_seps (s : Bytes) :
    ∀ b ∈ urlencode s, b ≠ 38 ∧ b ≠ 61 ∧ b ≠ 63 := by
  induction s with
  | nil => simp [urlencode]
  | cons a rest ih =>
    intro b hb
    simp only [urlencode, List.mem_append] at hb
    rcases hb with hb | hb
    · split at hb
      · next ha =>
        simp at hb
        subst hb
        exact (isUnreservedByte_ne _ ha).2
      · simp at hb
        rcases hb with hb | hb | hb
        · omega
        · subst hb; exact hexDigitB_ne _
        · subst hb; exact hexDigitB_ne _
    · exact ih b hb

theorem urldecode_cons_ne (b : Nat) (l : Bytes) (h : b ≠ 37) :
    urldecode (b :: l) = b :: urldecode l := by
  match l with
  | [] => simp [urldecode]
  | [x] => simp [urldecode]
  | x :: y :: r => simp [urldecode, h]

theorem urldecode_escape (x y : Nat) (r : Bytes)
    (hx : isHexDigitB x = true) (hy : isHexDigitB y = true) :
    urldecode (37 :: x :: y :: r) = (hexValB x * 16 + hexValB y) :: urldecode r := by
  simp [urldecode, hx, hy]

theorem urldecode_urlencode (s : Bytes) (h : ∀ b ∈ s, b < 256) :
    urldecode (urlencode s) = s := by
  induction s with
  | nil => simp [urlencode, urldecode]
  | cons b rest ih =>
    have hb : b < 256 := h b (by simp)
    have hrest : ∀ c ∈ rest, c < 256 := fun c hc => h c (by simp [hc])
    simp only [urlencode]
    split
    · next hu =>
      simp only [List.cons_append, List.nil_append]
      rw [urldecode_cons_ne b _ (isUnreservedByte_ne b hu).1, ih hrest]
    · have hdiv : b / 16 < 16 := by omega
      have hmod : b % 16 < 16 := by omega
      simp only [List.cons_append, List.nil_append]
      rw [urldecode_escape _ _ _ (isHexDigitB_hexDigitB _ hdiv) (isHexDigitB_hexDigitB _ hmod)]
      rw [hexValB_hexDigitB _ hdiv, hexValB_hexDigitB _ hmod, ih hrest]
      congr 1
      omega

theorem splitOnB_cons_eq (sep b : Nat) (rest : Bytes) (h : Bytes) (t : List Bytes)
    (hht : splitOnB sep rest = h :: t) :
    splitOnB sep (b :: rest) = if b = sep then [] :: h :: t else (b :: h) :: t := by
  simp only [splitOnB, hht]

theorem splitOnB_ne_nil (sep : Nat) (l : Bytes) : splitOnB sep l ≠ [] := by
  induction l with
  | nil => simp [splitOnB]
  | cons b rest ih =>
    obtain ⟨h, t, hht⟩ : ∃ h t, splitOnB sep rest = h :: t := by
      cases hs : splitOnB sep rest with
      | nil => exact absurd hs ih
      | cons h t => exact ⟨h, t, rfl⟩
    rw [splitOnB_cons_eq sep b rest h t hht]
    split <;> simp

theorem splitOnB_cons_dest (sep : Nat) (l : Bytes) :
    ∃ h t, splitOnB sep l = h :: t := by
  cases hs : splitOnB sep l with
  | nil => exact absurd hs (splitOnB_ne_nil sep l)
  | cons h t => exact ⟨h, t, rfl⟩

theorem splitOnB_append (sep : Nat) (xs ys : Bytes) :
    splitOnB sep (xs ++ sep :: ys) = splitOnB sep xs ++ splitOnB sep ys := by
  induction xs with
  | nil =>
    obtain ⟨h, t, hht⟩ := splitOnB_cons_dest sep ys
    rw [List.nil_append, splitOnB_cons_eq sep sep ys h t hht, if_pos rfl, hht]
    rfl
  | cons a xs ih =>
    obtain ⟨h, t, hht⟩ := splitOnB_cons_dest sep xs
    have hinner : splitOnB sep (xs ++ sep :: ys) = h :: (t ++ splitOnB sep ys) := by
      rw [ih, hht, List.cons_append]
    rw [List.cons_append, splitOnB_cons_eq sep a _ _ _ hinner,
      splitOnB_cons_eq sep a _ _ _ hht]
    split <;> simp

theorem splitOnB_of_not_mem (sep : Nat) (xs : Bytes) (h : sep ∉ xs) :
    splitOnB sep xs = [xs] := by
  induction xs with
  | nil => simp [splitOnB]
  | cons a xs ih =>
    have ha : a ≠ sep := fun he => h (by simp [he])
    have hxs : sep ∉ xs := fun hm => h (by simp [hm])
    rw [splitOnB_cons_eq sep a xs xs [] (ih hxs), if_neg ha]

theorem splitOnB_joinSep (sep : Nat) (pieces : List Bytes)
    (hne : pieces ≠ []) (hsep : ∀ p ∈ pieces, sep ∉ p) :
    splitOnB sep (joinSep sep pieces) = pieces := by
  induction pieces with
  | nil => exact absurd rfl hne
  | cons p rest ih =>
    cases rest with
    | nil => exact splitOnB_of_not_mem sep p (hsep p (by simp))
    | cons q rest2 =>
      have h1 : splitOnB sep (joinSep sep (q :: rest2)) = q :: rest2 :=
        ih (by simp) (fun r hr => hsep r (by simp [hr]))
      calc splitOnB sep (joinSep sep (p :: q :: rest2))
          = splitOnB sep (p ++ sep :: joinSep sep (q :: rest2)) := rfl
        _ = splitOnB sep p ++ splitOnB sep (joinSep sep (q :: rest2)) :=
            splitOnB_append sep p _
        _ = [p] ++ (q :: rest2) := by
            rw [splitOnB_of_not_mem sep p (hsep p (by simp)), h1]
        _ = p :: q :: rest2 := rfl

theorem afterFirst?_append_of_some (sep : Nat) (xs z t : Bytes)
    (h : afterFirst? sep xs = some t) :
    afterFirst? sep (xs ++ z) = some (t ++ z) := by
  induction xs with
  | nil => simp [afterFirst?] at h
  | cons a xs ih =>
    simp only [afterFirst?] at h ⊢
    split
    · next ha =>
      simp only [ha, if_pos rfl] at h
      simp_all
    · next ha =>
      rw [if_neg ha] at h
      exact ih h

theorem afterFirst?_append_not_mem (sep : Nat) (xs ys : Bytes) (h : sep ∉ xs) :
    afterFirst? sep (xs ++ sep :: ys) = some ys := by
  induction xs with
  | nil => simp [afterFirst?]
  | cons a xs ih =>
    have ha : a ≠ sep := fun he => h (by simp [he])
    simp only [List.cons_append, afterFirst?, ha, if_false]
    exact ih (fun hm => h (by simp [hm]))

theorem afterFirst?_eq_none (sep : Nat) (xs : Bytes) (h : sep ∉ xs) :
    afterFirst? sep xs = none := by
  induction xs with
  | nil => rfl
  | cons a xs ih =>
    have ha : a ≠ sep := fun he => h (by simp [he])
    simp only [afterFirst?, ha, if_false]
    exact ih (fun hm => h (by simp [hm]))

theorem afterFirst?_of_mem (sep : Nat) (l : Bytes) (h : sep ∈ l) :
    ∃ t, afterFirst? sep l = some t := by
  induction l with
  | nil => simp at h
  | cons a l ih =>
    by_cases ha : a = sep
    · exact ⟨l, by simp [afterFirst?, ha]⟩
    · have : sep ∈ l := by
        rcases List.mem_cons.mp h with he | hm
        · exact absurd he.symm ha
        · exact hm
      obtain ⟨t, ht⟩ := ih this
      exact ⟨t, by simp [afterFirst?, ha, ht]⟩

theorem containsSub_single_iff (l : Bytes) (s : Nat) :
    containsSub l [s] = true ↔ s ∈ l := by
  induction l with
  | nil => simp [containsSub, findSub?]
  | cons c rest ih =>
    simp only [containsSub, findSub?, startsWithB] at ih ⊢
    by_cases hc : c = s
    · simp [hc]
    · simp only [hc, if_false, List.mem_cons]
      constructor
      · intro h
        right
        apply ih.mp
        simpa using h
      · intro h
        rcases h with h | h
        · exact absurd h.symm hc
        · simpa using ih.mpr h

theorem splitFirstAt_cons_ne (sep a : Nat) (rest : Bytes) (ha : a ≠ sep) :
    splitFirstAt sep (a :: rest) =
      (a :: (splitFirstAt sep rest).1, (splitFirstAt sep rest).2) := by
  simp [splitFirstAt, ha]

theorem splitFirstAt_encode (sep : Nat) (k v : Bytes) (h : sep ∉ k) :
    splitFirstAt sep (k ++ sep :: v) = (k, v) := by
  induction k with
  | nil => simp [splitFirstAt]
  | cons a k ih =>
    have ha : a ≠ sep := fun he => h (by simp [he])
    have ih2 := ih (fun hm => h (by simp [hm]))
    rw [List.cons_append, splitFirstAt_cons_ne sep a _ ha, ih2]

theorem decodePair_encode (k v : Bytes)
    (hk : ∀ b ∈ k, b < 256) (hv : ∀ b ∈ v, b < 256) :
    decodePair (urlencode k ++ 61 :: urlencode v) = (k, v) := by
  have h61 : (61 : Nat) ∉ urlencode k := fun hm =>
    (urlencode_no_seps k 61 hm).2.1 rfl
  simp only [decodePair, splitFirstAt_encode 61 _ _ h61]
  rw [urldecode_urlencode k hk, urldecode_urlencode v hv]

theorem decode_pieces_of_params (params : List (Bytes × Bytes))
    (hne : params ≠ [])
    (hb : ∀ kv ∈ params, (∀ b ∈ kv.1, b < 256) ∧ (∀ b ∈ kv.2, b < 256)) :
    (splitOnB 38 (joinSep 38
        (params.map fun kv => urlencode kv.1 ++ 61 :: urlencode kv.2))).map decodePair
      = params := by
  have hpieces : ∀ p ∈ params.map fun kv => urlencode kv.1 ++ 61 :: urlencode kv.2,
      (38 : Nat) ∉ p := by
    intro p hp
    obtain ⟨kv, _, rfl⟩ := List.mem_map.mp hp
    intro hm
    rcases List.mem_append.mp hm with hm | hm
    · exact (urlencode_no_seps kv.1 38 hm).1 rfl
    · rcases List.mem_cons.mp hm with hm | hm
      · omega
      · exact (urlencode_no_seps kv.2 38 hm).1 rfl
  rw [splitOnB_joinSep 38 _ (by simpa using hne) hpieces, List.map_map]
  have : ∀ kv ∈ params,
      (decodePair ∘ fun kv => urlencode kv.1 ++ 61 :: urlencode kv.2) kv = id kv := by
    intro kv hkv
    simpa using decodePair_encode kv.1 kv.2 (hb kv hkv).1 (hb kv hkv).2
  rw [List.map_congr_left this, List.map_id]

/-- C6 counterexample: merging `b=2` into `http://h/a?x=1` (an
expanded URL that already has a query component) produces
`http://h/a?x=1&b=2`, whose decoded query set also contains the
pre-existing pair `x=1`, so it is not equal to the supplied set. -/
theorem c6_counterexample :
    sameSet (queryPairs (merge_query (bytes "http://h/a?x=1") [(bytes "b", bytes "2")]))
        [(bytes "b", bytes "2")] = false
      ∧ (bytes "x", bytes "1")
          ∈ queryPairs (merge_query (bytes "http://h/a?x=1") [(bytes "b", bytes "2")])
      ∧ (bytes "x", bytes "1") ∉ [((bytes "b", bytes "2") : Bytes × Bytes)] := by
  refine ⟨by decide, by decide, by decide⟩

/-- C6 amended: merging non-empty query parameters encodes each key
and value independently, joins them with `&` and appends them after
`?` (after `&` when the expanded URL already contains `?`); decoding
the merged URL's query component yields the expanded URL's
pre-existing decoded pairs followed by exactly the original key/value
pairs — in particular exactly the original pairs whenever the
expanded URL had no query component. -/
theorem c6_merge_roundtrip_amended (expanded : Bytes) (params : List (Bytes × Bytes))
    (hne : params ≠ [])
    (hb : ∀ kv ∈ params, (∀ b ∈ kv.1, b < 256) ∧ (∀ b ∈ kv.2, b < 256)) :
    queryPairs (merge_query expanded params) = queryPairs expanded ++ params := by
  have hqs := decode_pieces_of_params params hne hb
  set qs := joinSep 38 (params.map fun kv => urlencode kv.1 ++ 61 :: urlencode kv.2) with hqsdef
  by_cases hc : containsSub expanded [63] = true
  · have hmem : (63 : Nat) ∈ expanded := (containsSub_single_iff expanded 63).mp hc
    obtain ⟨t, ht⟩ := afterFirst?_of_mem 63 expanded hmem
    have hmerged : merge_query expanded params = expanded ++ 38 :: qs := by
      simp [merge_query, hne, hc]
    rw [hmerged]
    simp only [queryPairs, afterFirst?_append_of_some 63 expanded (38 :: qs) t ht, ht]
    rw [splitOnB_append 38 t qs, List.map_append, hqs]
  · have hnotmem : (63 : Nat) ∉ expanded := fun hm =>
      hc ((containsSub_single_iff expanded 63).mpr hm)
    have hmerged : merge_query expanded params = expanded ++ 63 :: qs := by
      simp [merge_query, hne, hc]
    rw [hmerged]
    simp only [queryPairs, afterFirst?_append_not_mem 63 expanded qs hnotmem,
      afterFirst?_eq_none 63 expanded hnotmem, hqs, List.nil_append]

/-- Witness for C6 amended: merging `a b = 1&2` into a URL without a
query component round-trips to exactly the original pair. -/
theorem c6_merge_roundtrip_amended_witness :
    ([((bytes "a b", bytes "1&2") : Bytes × Bytes)] ≠ [])
      ∧ queryPairs (merge_query (bytes "http://host.com/foo") [(bytes "a b", bytes "1&2")]) =
          queryPairs (bytes "http://host.com/foo") ++ [(bytes "a b", bytes "1&2")] :=
  ⟨by decide,
    c6_merge_roundtrip_amended (bytes "http://host.com/foo") [(bytes "a b", bytes "1&2")]
      (by decide) (by decide)⟩

/-- C8: the normaliser is not injective: the distinct short codes
`a-b` and `atob` share the lookup key `atob`. -/
theorem c8_normalized_id_collision :
    normalized_id (bytes "a-b") = normalized_id (bytes "atob")
      ∧ bytes "a-b" ≠ bytes "atob"
      ∧ normalized_id (bytes "a-b") = bytes "atob" := by
  refine ⟨by decide, by decide, by decide⟩

end GoHome
